import Mathlib

/-!
Shallow embedding of the bracket-notation pair-resolution core
(`src/de/stash/map.rs` and `src/de/stash/seq.rs`): the `PairMap` node type,
its `Stash` of deferred deeper-level pairs, and the `PairSeq` sequence form.

Bytes are modelled as `List Nat` (byte values; 93 = `']'`, 91 = `'['`).
Rust's `VecDeque` of pairs is modelled as a `List` whose HEAD is the next
pair to be consumed (the Rust code always pops from the back of the deque,
so the Lean list stores the deque back-to-front).  A Rust `Vec` of sequence
items is modelled as a `List` in the same order as the `Vec` (index 0 =
head); `Vec::pop` removes the LAST element of that list.

Mutation is modelled by explicit state passing; fallible calls return
`Except Error`.  The `u16` depth counter is a `Nat`; the unguarded
`remaining_depth - 1` subtractions of the Rust source are embedded with an
explicit wrap-around (`sub16`) so that potential `u16` underflow is visible.
-/

namespace SerdeQS

/-- The raw bytes of a key or value: a borrowed byte range of the input. -/
abbrev Bytes := List Nat

/-- The four error kinds of the core (`crate::error::Error`). -/
inductive Error where
  | InvalidMapKey
  | InvalidMapValue
  | MaximumDepthReached
  | EofReached
deriving DecidableEq, Repr

/-- Decidable equality of fallible results, for evaluating the embedding
on concrete inputs. -/
instance {ε α : Type} [DecidableEq ε] [DecidableEq α] : DecidableEq (Except ε α) := fun a b =>
  match a, b with
  | .error e, .error e' =>
    if h : e = e' then .isTrue (by rw [h]) else .isFalse (by intro hc; cases hc; exact h rfl)
  | .ok x, .ok y =>
    if h : x = y then .isTrue (by rw [h]) else .isFalse (by intro hc; cases hc; exact h rfl)
  | .error _, .ok _ => .isFalse (by intro hc; cases hc)
  | .ok _, .error _ => .isFalse (by intro hc; cases hc)

/-- One raw key/value pair (`Pair` in `src/de/stash/mod.rs`). -/
structure Pair where
  key : Bytes
  value : Bytes
deriving DecidableEq, Repr

/-- The stash of deferred deeper-level pairs.  Modelled from the spec:
`Stash` itself is declared outside `src/` (only its interface is used by
the two source files).  Per the spec it holds `remaining_depth` and an
ordered collection of `(group_key, ordered list of child Pair)`. -/
structure Stash where
  remaining_depth : Nat
  groups : List (Bytes × List Pair)
deriving DecidableEq, Repr

/-- The central node type (`PairMap` in `src/de/stash/map.rs`):
a level-local queue of pairs, the single-slot pending value, and a stash. -/
structure PairMap where
  pairs : List Pair
  value : Option Bytes
  stash : Stash
deriving DecidableEq, Repr

/-- A resolved sequence item (`ItemKind` in `src/de/stash/seq.rs`). -/
inductive ItemKind where
  | Value (v : Bytes)
  | Map (m : PairMap)
deriving DecidableEq, Repr

/-- An already-resolved ordered sequence (`PairSeq` in `src/de/stash/seq.rs`). -/
structure PairSeq where
  items : List ItemKind
  remaining_depth : Nat
deriving DecidableEq, Repr

/-- What a resolution step hands to the external typed-decoding seed
(out of scope for this core): either a scalar byte range together with the
depth given to the scalar `Deserializer`, the same but to be decoded as a
sequence, a child `PairMap` handed onward whole, or a `PairSeq`. -/
inductive SeedInput where
  | scalar (v : Bytes) (depth : Nat)
  | scalarSeq (v : Bytes) (depth : Nat)
  | subMap (m : PairMap)
  | seq (sq : PairSeq)
deriving DecidableEq, Repr

/-- Wrapping `u16` decrement: the embedding of the Rust expression
`remaining_depth - 1` on a `u16`, which wraps around at 0. -/
def sub16 (d : Nat) : Nat := (d + 65535) % 65536

/-- Modelled from the spec: `crate::from_bytes::<u16>` (declared outside
`src/`) — "attempt to decode the key as a bounded non-negative integer
(fits a small unsigned index type)": all-decimal-digit, non-empty, value
below 2^16. -/
def from_bytes_u16 (b : Bytes) : Option Nat :=
  if b ≠ [] ∧ b.all (fun c => 48 ≤ c && c ≤ 57) then
    let n := b.foldl (fun acc c => acc * 10 + (c - 48)) 0
    if n < 65536 then some n else none
  else none

/-- The sort key `into_seq` assigns to an item with resolved/group key `k`:
the key decoded as a `u16` if possible, else the sentinel −1. -/
def sortKeyOf (k : Bytes) : Int :=
  match from_bytes_u16 k with
  | some n => (n : Int)
  | none => -1

/-- `Stash::new(depth)`: an empty stash at the given depth. -/
def Stash.new (depth : Nat) : Stash := ⟨depth, []⟩

/-- Append a deferred pair to the group with key `gk`, creating the group
at the end if absent (discovery order of groups is preserved). -/
def addToGroups : List (Bytes × List Pair) → Bytes → Pair → List (Bytes × List Pair)
  | [], gk, p => [(gk, [p])]
  | (k, ps) :: rest, gk, p =>
    if k = gk then (k, ps ++ [p]) :: rest
    else (k, ps) :: addToGroups rest gk p

/-- Modelled from the spec: `Stash::add` (declared outside `src/`) —
"register (segment, remainder-after-'[', value) into the Stash under group
key = segment" into the ordered collection of groups. -/
def Stash.add (st : Stash) (gk : Bytes) (childKey : Bytes) (v : Bytes) : Stash :=
  { st with groups := addToGroups st.groups gk ⟨childKey, v⟩ }

/-- Modelled from the spec: `Stash::next_key` (declared outside `src/`) —
the "next unresolved group name", i.e. the key of the first group still
buffered, without consuming it. -/
def Stash.next_key (st : Stash) : Option Bytes :=
  st.groups.head?.map Prod.fst

/-- Modelled from the spec: `Stash::next_value_map` (declared outside
`src/`) — "builds the child PairMap for the group matching the key just
returned, itself already at `remaining_depth − 1`"; per §5 every descent
decrements the depth by one and "reaching 0 and needing to descend further
fails deterministically with MaximumDepthReached".  Consuming with no group
left is a protocol misuse, modelled as InvalidMapValue (not exercised by
the claims). -/
def Stash.next_value_map (st : Stash) : Except Error (PairMap × Stash) :=
  if st.remaining_depth = 0 then .error .MaximumDepthReached
  else
    match st.groups with
    | [] => .error .InvalidMapValue
    | (_, ps) :: rest =>
      .ok (⟨ps, none, Stash.new (st.remaining_depth - 1)⟩, ⟨st.remaining_depth, rest⟩)

/-- `PairMap::new(depth, pairs)`. -/
def PairMap.new (depth : Nat) (pairs : List Pair) : PairMap :=
  ⟨pairs, none, Stash.new depth⟩

/-- `PairMap::with_one_pair(depth, pair)`: a fresh single-pair node. -/
def PairMap.with_one_pair (depth : Nat) (p : Pair) : PairMap :=
  ⟨[p], none, Stash.new depth⟩

/-- The scanner loop at the start of `parse_pair`: index of the first `']'`
(byte 93) in the key, if any. -/
def keyIndexOf : Bytes → Option Nat
  | [] => none
  | b :: rest =>
    if b = 93 then some 0
    else (keyIndexOf rest).map (· + 1)

/-- The body of `PairMap::parse_pair` acting on the two fields it touches
(`value` and `stash`); returns the resolved key (if terminal) and the two
updated fields.  Mirrors `map.rs` lines 37–73. -/
def parse_pair_core (v : Option Bytes) (st : Stash) (p : Pair) :
    Except Error (Option Bytes × Option Bytes × Stash) :=
  match keyIndexOf p.key with
  | none => .error .InvalidMapKey
  | some i =>
    if i + 1 < p.key.length then
      if i + 2 < p.key.length ∧ p.key.getD (i + 1) 0 = 91 then
        .ok (none, v, st.add (p.key.take i) (p.key.drop (i + 2)) p.value)
      else
        .error .InvalidMapKey
    else
      .ok (some (p.key.take i), some p.value, st)

/-- `PairMap::parse_pair` as a state-passing function on the whole node. -/
def PairMap.parse_pair (m : PairMap) (p : Pair) :
    Except Error (Option Bytes × PairMap) :=
  (parse_pair_core m.value m.stash p).map fun r =>
    (r.1, { m with value := r.2.1, stash := r.2.2 })

/-- The loop of `PairMap::next_key`: pop pairs (from the back of the deque,
i.e. the head of our list) and run `parse_pair` until a terminal key
appears or the queue is exhausted. -/
def next_key_aux : List Pair → Option Bytes → Stash →
    Except Error (Option Bytes × List Pair × Option Bytes × Stash)
  | [], v, st => .ok (none, [], v, st)
  | p :: rest, v, st =>
    match parse_pair_core v st p with
    | .error e => .error e
    | .ok (some k, v', st') => .ok (some k, rest, v', st')
    | .ok (none, v', st') => next_key_aux rest v' st'

/-- `PairMap::next_key`. -/
def PairMap.next_key (m : PairMap) : Except Error (Option Bytes × PairMap) :=
  (next_key_aux m.pairs m.value m.stash).map fun r =>
    (r.1, ⟨r.2.1, r.2.2.1, r.2.2.2⟩)

/-- `PairMap::next_value` (`map.rs` lines 91–96): take and clear the
single-slot pending value; error if nothing is pending. -/
def PairMap.next_value (m : PairMap) : Except Error (Bytes × PairMap) :=
  match m.value with
  | some v => .ok (v, { m with value := none })
  | none => .error .InvalidMapValue

/-- When `next_key_aux` produces a terminal key, at least one pair has been
consumed from the queue. -/
theorem next_key_aux_some_length :
    ∀ (pairs : List Pair) (v : Option Bytes) (st : Stash) (k : Bytes)
      (pairs' : List Pair) (v' : Option Bytes) (st' : Stash),
      next_key_aux pairs v st = .ok (some k, pairs', v', st') →
      pairs'.length < pairs.length := by
  intro pairs
  induction pairs with
  | nil => intro v st k pairs' v' st' h; simp [next_key_aux] at h
  | cons p rest ih =>
    intro v st k pairs' v' st' h
    simp only [next_key_aux] at h
    rcases hp : parse_pair_core v st p with e | ⟨k?, v₁, st₁⟩
    · rw [hp] at h; cases h
    · rw [hp] at h
      cases k? with
      | some k₁ =>
        simp only at h
        injection h with h'
        injection h' with h1 h2
        injection h2 with h3 h4
        subst h3
        simp
      | none =>
        simp only at h
        exact Nat.lt_trans (ih v₁ st₁ k pairs' v' st' h) (by simp)

/-- First loop of `PairMap::into_seq` (`map.rs` lines 101–108): drain all
level-local terminal pairs via `next_key`/`next_value`, assigning each the
sort key of its resolved key (or −1); returns the keyed scalar items in
discovery order together with the stash left behind. -/
def into_seq_scalars (pairs : List Pair) (v : Option Bytes) (st : Stash) :
    Except Error (List (Int × ItemKind) × Stash) :=
  match h : next_key_aux pairs v st with
  | .error e => .error e
  | .ok (none, _, _, st') => .ok ([], st')
  | .ok (some k, pairs', v', st') =>
    match v' with
    | none => .error .InvalidMapValue
    | some val =>
      match into_seq_scalars pairs' none st' with
      | .error e => .error e
      | .ok (items, stF) => .ok ((sortKeyOf k, ItemKind.Value val) :: items, stF)
termination_by pairs.length
decreasing_by exact next_key_aux_some_length pairs v st k pairs' _ st' h

/-- Second loop of `PairMap::into_seq` (`map.rs` lines 112–132): drain all
stash groups; an empty group key explodes the reconstructed child's pairs
into fresh single-pair maps with sentinel key −1, a non-empty group key
emits one map item keyed by the group key's numeric value (or −1). -/
def into_seq_stash (st : Stash) : Except Error (List (Int × ItemKind)) :=
  match Stash.next_key st with
  | none => .ok []
  | some key =>
    match h : Stash.next_value_map st with
    | .error e => .error e
    | .ok (m, st') =>
      if key = [] then
        match into_seq_stash st' with
        | .error e => .error e
        | .ok items =>
          .ok ((m.pairs.map fun p =>
            ((-1 : Int), ItemKind.Map (PairMap.with_one_pair (sub16 st.remaining_depth) p))) ++ items)
      else
        match into_seq_stash st' with
        | .error e => .error e
        | .ok items => .ok ((sortKeyOf key, ItemKind.Map m) :: items)
termination_by st.groups.length
decreasing_by
  all_goals {
    simp only [Stash.next_value_map] at h
    split at h
    · cases h
    · rcases hg : st.groups with _ | ⟨⟨gk, ps⟩, rest⟩ <;> rw [hg] at h
      · cases h
      · injection h with h'
        injection h' with h1 h2
        subst h2
        simp [hg]
  }

/-- The item-discovery phase of `PairMap::into_seq`: both loops run in
order, producing all keyed items in discovery order plus the final stash
(whose depth the Rust code reads for the resulting `PairSeq`). -/
def discovery (m : PairMap) : Except Error (List (Int × ItemKind) × Stash) :=
  match into_seq_scalars m.pairs m.value m.stash with
  | .error e => .error e
  | .ok (items1, st) =>
    match into_seq_stash st with
    | .error e => .error e
    | .ok items2 => .ok (items1 ++ items2, st)

/-- The comparison `sort_by_key(|item| item.0)` sorts by: ascending item
sort key (`Vec::sort_by_key` is a stable sort). -/
def sortLE (a b : Int × ItemKind) : Bool := decide (a.1 ≤ b.1)

/-- `PairMap::into_seq` (`map.rs` lines 98–140): discover keyed items,
stable-sort ascending by sort key, reverse, strip the keys, and package
with the (unchanged) stash depth. -/
def PairMap.into_seq (m : PairMap) : Except Error PairSeq :=
  match discovery m with
  | .error e => .error e
  | .ok (items, st) =>
    .ok ⟨((items.mergeSort sortLE).reverse).map Prod.snd, st.remaining_depth⟩

/-- Outcome of `deserialize_option` (`map.rs` lines 154–164): either the
visitor sees "absent" (`visit_none`) or the whole node is handed onward
(`visit_some`). -/
inductive OptProbe where
  | absent
  | present (m : PairMap)
deriving DecidableEq, Repr

/-- `PairMap::deserialize_option`: absent iff the level-local queue is
empty, otherwise the whole node is handed onward. -/
def PairMap.deserialize_option (m : PairMap) : OptProbe :=
  if m.pairs = [] then .absent else .present m

/-- `MapAccess::next_key_seed` (`map.rs` lines 197–217): depth guard first,
then the level-local queue, then the stash; the winning byte range is
handed to the external scalar decoder (we return the range itself). -/
def PairMap.next_key_seed (m : PairMap) : Except Error (Option Bytes × PairMap) :=
  if m.stash.remaining_depth = 0 then .error .MaximumDepthReached
  else
    match m.next_key with
    | .error e => .error e
    | .ok (some k, m') => .ok (some k, m')
    | .ok (none, m') =>
      match Stash.next_key m'.stash with
      | some k => .ok (some k, m')
      | none => .ok (none, m')

/-- `MapAccess::next_value_seed` (`map.rs` lines 219–230): a pending scalar
is decoded at `remaining_depth - 1` (unguarded `u16` subtraction, embedded
as `sub16`); otherwise the stash-reconstructed child map is handed to the
seed whole. -/
def PairMap.next_value_seed (m : PairMap) : Except Error (SeedInput × PairMap) :=
  match m.next_value with
  | .ok (v, m') => .ok (.scalar v (sub16 m'.stash.remaining_depth), m')
  | .error _ =>
    match Stash.next_value_map m.stash with
    | .error e => .error e
    | .ok (child, st') => .ok (.subMap child, { m with stash := st' })

/-- `EnumAccess::variant_seed` (`map.rs` lines 237–269): depth guard, then
queue, then stash; exhaustion of both is `EofReached`; the winning key
range is decoded at `remaining_depth - 1` (embedded as `sub16`). -/
def PairMap.variant_seed (m : PairMap) : Except Error (SeedInput × PairMap) :=
  if m.stash.remaining_depth = 0 then .error .MaximumDepthReached
  else
    match m.next_key with
    | .error e => .error e
    | .ok (some k, m') => .ok (.scalar k (sub16 m'.stash.remaining_depth), m')
    | .ok (none, m') =>
      match Stash.next_key m'.stash with
      | some k => .ok (.scalar k (sub16 m'.stash.remaining_depth), m')
      | none => .error .EofReached

/-- `VariantAccess::unit_variant` (`map.rs` lines 275–278): succeeds, reads
nothing, changes nothing. -/
def PairMap.unit_variant (m : PairMap) : Except Error (Unit × PairMap) :=
  .ok ((), m)

/-- `VariantAccess::tuple_variant` (`map.rs` lines 280–291): a pending
scalar is decoded as a sequence at `remaining_depth - 1` (`sub16`);
otherwise the stash child map is converted by `into_seq` and visited. -/
def PairMap.tuple_variant (m : PairMap) : Except Error (SeedInput × PairMap) :=
  match m.next_value with
  | .ok (v, m') => .ok (.scalarSeq v (sub16 m'.stash.remaining_depth), m')
  | .error _ =>
    match Stash.next_value_map m.stash with
    | .error e => .error e
    | .ok (child, st') =>
      match child.into_seq with
      | .error e => .error e
      | .ok sq => .ok (.seq sq, { m with stash := st' })

/-- `VariantAccess::newtype_variant_seed` (`map.rs` lines 300–311): same
shape as `next_value_seed`. -/
def PairMap.newtype_variant_seed (m : PairMap) : Except Error (SeedInput × PairMap) :=
  match m.next_value with
  | .ok (v, m') => .ok (.scalar v (sub16 m'.stash.remaining_depth), m')
  | .error _ =>
    match Stash.next_value_map m.stash with
    | .error e => .error e
    | .ok (child, st') => .ok (.subMap child, { m with stash := st' })

/-- `Vec::pop`: remove and return the LAST element of the list (the Rust
`Vec`'s back), together with the remaining front part. -/
def vecPop : List ItemKind → Option (List ItemKind × ItemKind)
  | [] => none
  | [a] => some ([], a)
  | a :: b :: rest =>
    (vecPop (b :: rest)).map fun r => (a :: r.1, r.2)

/-- `SeqAccess::next_element_seed` (`seq.rs` lines 29–43): pop the next
item from the back of the item vector; a scalar goes to the external
decoder at the node's `remaining_depth`, a map item is handed whole. -/
def PairSeq.next_element_seed (sq : PairSeq) : Option (SeedInput × PairSeq) :=
  match vecPop sq.items with
  | none => none
  | some (rest, .Value v) => some (.scalar v sq.remaining_depth, ⟨rest, sq.remaining_depth⟩)
  | some (rest, .Map child) => some (.subMap child, ⟨rest, sq.remaining_depth⟩)

/-- `vecPop` removes exactly the last element. -/
theorem vecPop_eq_some :
    ∀ (l rest : List ItemKind) (a : ItemKind),
      vecPop l = some (rest, a) → l = rest ++ [a] := by
  intro l
  induction l with
  | nil => intro rest a h; simp [vecPop] at h
  | cons x xs ih =>
    intro rest a h
    cases xs with
    | nil =>
      simp [vecPop] at h
      simp [h.1, h.2]
    | cons y ys =>
      simp only [vecPop] at h
      rcases hv : vecPop (y :: ys) with _ | ⟨r1, r2⟩ <;> rw [hv] at h
      · cases h
      · simp only [Option.map_some'] at h
        injection h with h'
        injection h' with h1 h2
        subst h1; subst h2
        simp [ih r1 r2 hv]

/-- `vecPop` returns `none` exactly on the empty vector. -/
theorem vecPop_eq_none : ∀ l : List ItemKind, vecPop l = none ↔ l = [] := by
  intro l
  cases l with
  | nil => simp [vecPop]
  | cons a xs =>
    cases xs with
    | nil => simp [vecPop]
    | cons b ys =>
      simp only [vecPop]
      constructor
      · intro h
        rcases hv : vecPop (b :: ys) with _ | r <;> rw [hv] at h
        · rw [vecPop_eq_none] at hv; cases hv
        · cases h
      · intro h; cases h

/-- What `next_element_seed` hands to the seed for a stored item, at a
given node depth. -/
def itemToSeed (d : Nat) : ItemKind → SeedInput
  | .Value v => .scalar v d
  | .Map m => .subMap m

/-- `vecPop` shrinks the vector by one. -/
theorem vecPop_length (l rest : List ItemKind) (a : ItemKind)
    (h : vecPop l = some (rest, a)) : rest.length < l.length := by
  rw [vecPop_eq_some l rest a h]
  simp

/-- The full emission order of a `PairSeq`: everything successive
`next_element_seed` calls hand to the seeds, in order, until exhaustion. -/
def emit_all (sq : PairSeq) : List SeedInput :=
  match h : sq.next_element_seed with
  | none => []
  | some (x, sq') => x :: emit_all sq'
termination_by sq.items.length
decreasing_by
  simp only [PairSeq.next_element_seed] at h
  rcases hv : vecPop sq.items with _ | ⟨rest, it⟩ <;> rw [hv] at h
  · cases h
  · have hlen := vecPop_length sq.items rest it hv
    rcases it with v | child <;> simp only at h <;>
      (injection h with h'; injection h' with h1 h2; subst h2; simpa using hlen)

/-- Emission reads the item vector back-to-front: `emit_all` is the
reversed item list, each item turned into its seed input at the node's
depth. -/
theorem emit_all_eq (sq : PairSeq) :
    emit_all sq = sq.items.reverse.map (itemToSeed sq.remaining_depth) := by
  rcases sq with ⟨items0, d⟩
  suffices H : ∀ (n : Nat) (items : List ItemKind), items.length = n →
      emit_all ⟨items, d⟩ = items.reverse.map (itemToSeed d) by
    exact H items0.length items0 rfl
  intro n
  induction n using Nat.strong_induction_on with
  | _ n ih =>
  intro items hn
  rw [emit_all]
  split
  · rename_i hv
    simp only [PairSeq.next_element_seed] at hv
    rcases hp : vecPop items with _ | r <;> rw [hp] at hv
    · rw [vecPop_eq_none] at hp
      subst hp; simp
    · rcases r with ⟨rest, it⟩
      rcases it with v | child <;> simp at hv
  · rename_i x sq' hv
    simp only [PairSeq.next_element_seed] at hv
    rcases hp : vecPop items with _ | ⟨rest, it⟩ <;> rw [hp] at hv
    · cases hv
    · have hsplit := vecPop_eq_some items rest it hp
      have hlen : rest.length < n := by
        subst hn; exact vecPop_length items rest it hp
      rcases it with v | child <;> simp only at hv <;>
        (injection hv with hv'; injection hv' with hv1 hv2; subst hv1; subst hv2) <;>
        · rw [ih rest.length hlen rest rfl]
          subst hsplit
          simp [itemToSeed]

/-- The scanner finds no `']'` in a key without one. -/
theorem keyIndexOf_of_not_mem (key : Bytes) (h : 93 ∉ key) : keyIndexOf key = none := by
  induction key with
  | nil => rfl
  | cons b rest ih =>
    simp only [keyIndexOf]
    rw [if_neg (by intro hb; exact h (hb ▸ List.mem_cons_self b rest))]
    rw [ih (fun hm => h (List.mem_cons_of_mem b hm))]
    rfl

/-- The scanner finds the first `']'` right after a bracket-free segment. -/
theorem keyIndexOf_append (seg rest : Bytes) (h : 93 ∉ seg) :
    keyIndexOf (seg ++ 93 :: rest) = some seg.length := by
  induction seg with
  | nil => simp [keyIndexOf]
  | cons b s ih =>
    simp only [List.cons_append, keyIndexOf]
    rw [if_neg (by intro hb; exact h (hb ▸ List.mem_cons_self b s))]
    show Option.map (· + 1) (keyIndexOf (s ++ 93 :: rest)) = some (b :: s).length
    rw [ih (fun hm => h (List.mem_cons_of_mem b hm))]
    simp

/-- Indexing with default past an appended prefix. -/
theorem getD_append_len (seg l2 : Bytes) (k : Nat) :
    (seg ++ l2).getD (seg.length + k) 0 = l2.getD k 0 := by
  induction seg with
  | nil => simp
  | cons a s ih => simpa [Nat.succ_add] using ih

/-- Dropping past an appended prefix. -/
theorem drop_append_len (seg l2 : Bytes) (k : Nat) :
    (seg ++ l2).drop (seg.length + k) = l2.drop k := by
  induction seg with
  | nil => simp
  | cons a s ih => simpa [Nat.succ_add] using ih

/-- C1: `parse_pair` classifies every pair's key by the bracket grammar:
no `']'` fails with InvalidMapKey; `']'` as the last byte is terminal,
setting the pending value and returning the bytes before `']'`; `']'`
immediately followed by `'['` with at least one byte after defers the pair
into the stash under group key = segment with the segment-stripped
remainder and yields no key; any other trailing content after the first
`']'` (including a final `'['`) fails with InvalidMapKey.  Concretely, key
"abc" fails, key "a]c" fails, and key "a]" resolves to key "a". -/
theorem parse_pair_classification :
    (∀ (v : Option Bytes) (st : Stash) (key val : Bytes), 93 ∉ key →
      parse_pair_core v st ⟨key, val⟩ = .error .InvalidMapKey)
    ∧ (∀ (v : Option Bytes) (st : Stash) (seg val : Bytes), 93 ∉ seg →
      parse_pair_core v st ⟨seg ++ [93], val⟩ = .ok (some seg, some val, st))
    ∧ (∀ (v : Option Bytes) (st : Stash) (seg val : Bytes) (b : Nat) (tail : Bytes), 93 ∉ seg →
      parse_pair_core v st ⟨seg ++ 93 :: 91 :: b :: tail, val⟩ =
        .ok (none, v, st.add seg (b :: tail) val))
    ∧ (∀ (v : Option Bytes) (st : Stash) (seg val : Bytes) (c : Nat) (tail : Bytes),
      93 ∉ seg → c ≠ 91 →
      parse_pair_core v st ⟨seg ++ 93 :: c :: tail, val⟩ = .error .InvalidMapKey)
    ∧ (∀ (v : Option Bytes) (st : Stash) (seg val : Bytes), 93 ∉ seg →
      parse_pair_core v st ⟨seg ++ [93, 91], val⟩ = .error .InvalidMapKey)
    ∧ parse_pair_core none (Stash.new 3) ⟨[97, 98, 99], [120]⟩ = .error .InvalidMapKey
    ∧ parse_pair_core none (Stash.new 3) ⟨[97, 93, 99], [120]⟩ = .error .InvalidMapKey
    ∧ parse_pair_core none (Stash.new 3) ⟨[97, 93], [120]⟩ =
        .ok (some [97], some [120], Stash.new 3) := by
  refine ⟨?_, ?_, ?_, ?_, ?_, by decide, by decide, by decide⟩
  · intro v st key val h
    simp only [parse_pair_core, keyIndexOf_of_not_mem key h]
  · intro v st seg val h
    simp only [parse_pair_core]
    rw [show seg ++ [93] = seg ++ 93 :: [] from rfl, keyIndexOf_append seg [] h]
    simp only [List.length_append, List.length_cons, List.length_nil]
    rw [if_neg (by omega)]
    rw [List.take_left' rfl]
  · intro v st seg val b tail h
    simp only [parse_pair_core]
    rw [keyIndexOf_append seg (91 :: b :: tail) h]
    simp only [List.length_append, List.length_cons]
    rw [if_pos (by omega)]
    rw [if_pos ⟨by omega, by
      have := getD_append_len seg (93 :: 91 :: b :: tail) 1
      simpa using this⟩]
    rw [List.take_left' rfl]
    have hd : (seg ++ 93 :: 91 :: b :: tail).drop (seg.length + 2) = b :: tail := by
      simpa using drop_append_len seg (93 :: 91 :: b :: tail) 2
    rw [hd]
  · intro v st seg val c tail h hc
    simp only [parse_pair_core]
    rw [keyIndexOf_append seg (c :: tail) h]
    simp only [List.length_append, List.length_cons]
    rw [if_pos (by omega)]
    rw [if_neg (by
      rintro ⟨-, hg⟩
      have := getD_append_len seg (93 :: c :: tail) 1
      simp only [this] at hg
      exact hc (by simpa using hg))]
  · intro v st seg val h
    simp only [parse_pair_core]
    rw [show seg ++ [93, 91] = seg ++ 93 :: [91] from rfl, keyIndexOf_append seg [91] h]
    simp only [List.length_append, List.length_cons, List.length_nil]
    rw [if_pos (by omega)]
    rw [if_neg (by rintro ⟨hlen, -⟩; omega)]

/-- Witness for C1: the classification applied at concrete keys. -/
theorem parse_pair_classification_witness :
    parse_pair_core (none : Option Bytes) (Stash.new 3) ⟨[97] ++ 93 :: 91 :: 98 :: [], [120]⟩ =
      .ok (none, none, (Stash.new 3).add [97] [98] [120]) :=
  parse_pair_classification.2.2.1 none (Stash.new 3) [97] [120] 98 [] (by decide)

/-- C4: `next_value` takes and clears the single-slot pending value,
returning it when present; with nothing pending it fails with
InvalidMapValue; after a successful take the slot is empty, so a second
take without an intervening terminal key fails with InvalidMapValue. -/
theorem next_value_single_slot :
    (∀ (ps : List Pair) (st : Stash) (v : Bytes),
      PairMap.next_value ⟨ps, some v, st⟩ = .ok (v, ⟨ps, none, st⟩))
    ∧ (∀ (ps : List Pair) (st : Stash),
      PairMap.next_value ⟨ps, none, st⟩ = .error .InvalidMapValue)
    ∧ (∀ (m : PairMap) (v : Bytes) (m' : PairMap),
      PairMap.next_value m = .ok (v, m') →
      m'.value = none ∧ PairMap.next_value m' = .error .InvalidMapValue) := by
  refine ⟨fun ps st v => rfl, fun ps st => rfl, ?_⟩
  intro m v m' h
  rcases m with ⟨ps, val, st⟩
  rcases val with _ | v0
  · simp [PairMap.next_value] at h
  · simp only [PairMap.next_value] at h
    injection h with h'
    injection h' with h1 h2
    subst h2
    exact ⟨rfl, rfl⟩

/-- Witness for C4: the slot is cleared by a take, and a second take
fails. -/
theorem next_value_single_slot_witness :
    (PairMap.mk [] none (Stash.new 2)).value = none ∧
      PairMap.next_value ⟨[], none, Stash.new 2⟩ = .error .InvalidMapValue :=
  next_value_single_slot.2.2 ⟨[], some [120], Stash.new 2⟩ [120] ⟨[], none, Stash.new 2⟩
    (next_value_single_slot.1 [] (Stash.new 2) [120])

/-- C7: optional-presence probing resolves to absent exactly when the
level-local pair queue is empty, and otherwise hands the entire node
onward as present — the stash plays no part in the decision. -/
theorem deserialize_option_presence :
    (∀ m : PairMap, m.deserialize_option = .absent ↔ m.pairs = [])
    ∧ (∀ m : PairMap, m.pairs ≠ [] → m.deserialize_option = .present m) := by
  constructor
  · intro m
    constructor
    · intro h
      by_contra hne
      simp [PairMap.deserialize_option, hne] at h
    · intro h
      simp [PairMap.deserialize_option, h]
  · intro m h
    simp [PairMap.deserialize_option, h]

/-- Witness for C7: a node with an empty queue but a non-empty stash is
absent; a node with one queued pair is present. -/
theorem deserialize_option_presence_witness :
    (PairMap.deserialize_option ⟨[], none, ⟨3, [([97], [⟨[98, 93], [120]⟩])]⟩⟩ = .absent) ∧
      PairMap.deserialize_option ⟨[⟨[97, 93], [120]⟩], none, Stash.new 3⟩ =
        .present ⟨[⟨[97, 93], [120]⟩], none, Stash.new 3⟩ :=
  ⟨(deserialize_option_presence.1 ⟨[], none, ⟨3, [([97], [⟨[98, 93], [120]⟩])]⟩⟩).mpr rfl,
    deserialize_option_presence.2 ⟨[⟨[97, 93], [120]⟩], none, Stash.new 3⟩ (by decide)⟩

/-- `parse_pair` never changes the stash depth (the stash only gains
deferred pairs). -/
theorem parse_pair_core_depth (v : Option Bytes) (st : Stash) (p : Pair)
    (k : Option Bytes) (v' : Option Bytes) (st' : Stash)
    (h : parse_pair_core v st p = .ok (k, v', st')) :
    st'.remaining_depth = st.remaining_depth := by
  simp only [parse_pair_core] at h
  split at h
  · cases h
  · split at h
    · split at h
      · injection h with h'
        injection h' with h1 h2
        injection h2 with h3 h4
        subst h4
        rfl
      · cases h
    · injection h with h'
      injection h' with h1 h2
      injection h2 with h3 h4
      subst h4
      rfl

/-- The `next_key` loop never changes the stash depth. -/
theorem next_key_aux_depth :
    ∀ (pairs : List Pair) (v : Option Bytes) (st : Stash) (k : Option Bytes)
      (pairs' : List Pair) (v' : Option Bytes) (st' : Stash),
      next_key_aux pairs v st = .ok (k, pairs', v', st') →
      st'.remaining_depth = st.remaining_depth := by
  intro pairs
  induction pairs with
  | nil =>
    intro v st k pairs' v' st' h
    simp only [next_key_aux] at h
    injection h with h'
    injection h' with h1 h2
    injection h2 with h3 h4
    injection h4 with h5 h6
    subst h6
    rfl
  | cons p rest ih =>
    intro v st k pairs' v' st' h
    simp only [next_key_aux] at h
    rcases hp : parse_pair_core v st p with e | ⟨k?, v₁, st₁⟩ <;> rw [hp] at h
    · cases h
    · cases k? with
      | some k₁ =>
        simp only at h
        injection h with h'
        injection h' with h1 h2
        injection h2 with h3 h4
        injection h4 with h5 h6
        subst h6
        exact parse_pair_core_depth v st p (some k₁) v₁ st₁ hp
      | none =>
        simp only at h
        rw [ih v₁ st₁ k pairs' v' st' h]
        exact parse_pair_core_depth v st p none v₁ st₁ hp

/-- `PairMap.next_key` never changes the stash depth. -/
theorem next_key_depth (m : PairMap) (k : Option Bytes) (m' : PairMap)
    (h : m.next_key = .ok (k, m')) :
    m'.stash.remaining_depth = m.stash.remaining_depth := by
  simp only [PairMap.next_key] at h
  rcases ha : next_key_aux m.pairs m.value m.stash with e | ⟨k0, p0, v0, st0⟩ <;> rw [ha] at h
  · cases h
  · simp only [Except.map] at h
    injection h with h'
    injection h' with h1 h2
    subst h2
    exact next_key_aux_depth m.pairs m.value m.stash k0 p0 v0 st0 ha

/-- C3: map-key iteration and enum discriminant resolution fail with
MaximumDepthReached whenever `remaining_depth` is 0, before consulting
either the level-local queue or the stash (the error fires for every
queue/stash content); at positive depth both first take the queue's next
terminal key and only fall back to the stash's next group key when the
queue is exhausted. -/
theorem depth_guard_key_resolution :
    (∀ m : PairMap, m.stash.remaining_depth = 0 →
      m.next_key_seed = .error .MaximumDepthReached ∧
      m.variant_seed = .error .MaximumDepthReached)
    ∧ (∀ (m : PairMap) (k : Bytes) (m' : PairMap),
      0 < m.stash.remaining_depth → m.next_key = .ok (some k, m') →
      m.next_key_seed = .ok (some k, m') ∧
      m.variant_seed = .ok (.scalar k (sub16 m'.stash.remaining_depth), m'))
    ∧ (∀ (m m' : PairMap) (k : Bytes),
      0 < m.stash.remaining_depth → m.next_key = .ok (none, m') →
      Stash.next_key m'.stash = some k →
      m.next_key_seed = .ok (some k, m') ∧
      m.variant_seed = .ok (.scalar k (sub16 m'.stash.remaining_depth), m'))
    ∧ (∀ (m m' : PairMap),
      0 < m.stash.remaining_depth → m.next_key = .ok (none, m') →
      Stash.next_key m'.stash = none →
      m.next_key_seed = .ok (none, m')) := by
  refine ⟨?_, ?_, ?_, ?_⟩
  · intro m h
    constructor
    · simp only [PairMap.next_key_seed]
      rw [if_pos h]
    · simp only [PairMap.variant_seed]
      rw [if_pos h]
  · intro m k m' hd hk
    constructor
    · simp only [PairMap.next_key_seed]
      rw [if_neg (by omega), hk]
    · simp only [PairMap.variant_seed]
      rw [if_neg (by omega), hk]
  · intro m m' k hd hk hs
    constructor
    · simp only [PairMap.next_key_seed]
      rw [if_neg (by omega), hk]
      simp only [hs]
    · simp only [PairMap.variant_seed]
      rw [if_neg (by omega), hk]
      simp only [hs]
  · intro m m' hd hk hs
    simp only [PairMap.next_key_seed]
    rw [if_neg (by omega), hk]
    simp only [hs]

/-- Witness for C3: a depth-0 node with a queued pair still fails, and at
depth 2 the queue's terminal key wins. -/
theorem depth_guard_key_resolution_witness :
    (PairMap.next_key_seed ⟨[⟨[97, 93], [120]⟩], none, Stash.new 0⟩ =
        .error .MaximumDepthReached ∧
      PairMap.variant_seed ⟨[⟨[97, 93], [120]⟩], none, Stash.new 0⟩ =
        .error .MaximumDepthReached) ∧
      PairMap.next_key_seed ⟨[⟨[97, 93], [120]⟩], none, Stash.new 2⟩ =
        .ok (some [97], ⟨[], some [120], Stash.new 2⟩) :=
  ⟨depth_guard_key_resolution.1 ⟨[⟨[97, 93], [120]⟩], none, Stash.new 0⟩ rfl,
    (depth_guard_key_resolution.2.1 ⟨[⟨[97, 93], [120]⟩], none, Stash.new 2⟩ [97]
      ⟨[], some [120], Stash.new 2⟩ (by decide) (by decide)).1⟩

/-- C5: at positive depth, requesting an enum discriminant when both the
level-local queue and the stash are exhausted yields the error EofReached
(not an end-of-entries signal); resolving a unit variant reads nothing,
changes nothing, and succeeds.  Concretely, a single terminal pair with
key "A]" resolves the discriminant byte range "A" and then the unit
variant succeeds with no further reads. -/
theorem variant_eof_and_unit :
    (∀ m : PairMap, 0 < m.stash.remaining_depth → m.pairs = [] → m.stash.groups = [] →
      m.variant_seed = .error .EofReached)
    ∧ (∀ m : PairMap, m.unit_variant = .ok ((), m))
    ∧ PairMap.variant_seed ⟨[⟨[65, 93], []⟩], none, Stash.new 1⟩ =
        .ok (.scalar [65] (sub16 1), ⟨[], some [], Stash.new 1⟩)
    ∧ PairMap.unit_variant ⟨[], some [], Stash.new 1⟩ =
        .ok ((), ⟨[], some [], Stash.new 1⟩) := by
  refine ⟨?_, fun m => rfl, by decide, rfl⟩
  intro m hd hp hg
  simp only [PairMap.variant_seed]
  rw [if_neg (by omega)]
  have hk : m.next_key = .ok (none, m) := by
    rcases m with ⟨ps, v, st⟩
    simp only at hp
    subst hp
    rfl
  rw [hk]
  simp only [Stash.next_key, hg, List.head?_nil, Option.map_none']

/-- Witness for C5: an empty node at depth 1 yields EofReached. -/
theorem variant_eof_and_unit_witness :
    PairMap.variant_seed ⟨[], none, Stash.new 1⟩ = .error .EofReached :=
  variant_eof_and_unit.1 ⟨[], none, Stash.new 1⟩ (by decide) rfl rfl

/-- C10: the unguarded `u16` subtractions `remaining_depth - 1` (embedded
as `sub16`) in `next_value_seed`, `newtype_variant_seed`, `tuple_variant`
and the empty-group branch of `into_seq` never underflow when reached
through the decode protocol: stash group consumption
(`Stash::next_value_map`) only succeeds at positive depth, a successful
`next_key_seed`/`variant_seed` — the protocol step that must precede the
value/payload accessors — requires and preserves a positive depth, and at
positive (u16-ranged) depth `sub16` agrees with the exact decrement; the
stash-drain loop of `into_seq` errors at depth 0 before its subtraction is
reached. -/
theorem depth_sub_no_underflow :
    (∀ (st : Stash) (m' : PairMap) (st' : Stash),
      Stash.next_value_map st = .ok (m', st') →
      0 < st.remaining_depth ∧ st'.remaining_depth = st.remaining_depth ∧
        m'.stash.remaining_depth = st.remaining_depth - 1)
    ∧ (∀ (m : PairMap) (k : Bytes) (m' : PairMap),
      m.next_key_seed = .ok (some k, m') →
      0 < m'.stash.remaining_depth ∧ m'.stash.remaining_depth = m.stash.remaining_depth)
    ∧ (∀ (m : PairMap) (r : SeedInput) (m' : PairMap),
      m.variant_seed = .ok (r, m') →
      0 < m'.stash.remaining_depth ∧ m'.stash.remaining_depth = m.stash.remaining_depth)
    ∧ (∀ d : Nat, 0 < d → d < 65536 → sub16 d = d - 1)
    ∧ (∀ (m : PairMap) (v : Bytes) (d : Nat) (m' : PairMap),
      0 < m.stash.remaining_depth → m.stash.remaining_depth < 65536 →
      m.next_value_seed = .ok (.scalar v d, m') → d = m.stash.remaining_depth - 1)
    ∧ (∀ (m : PairMap) (v : Bytes) (d : Nat) (m' : PairMap),
      0 < m.stash.remaining_depth → m.stash.remaining_depth < 65536 →
      m.newtype_variant_seed = .ok (.scalar v d, m') → d = m.stash.remaining_depth - 1)
    ∧ (∀ (m : PairMap) (v : Bytes) (d : Nat) (m' : PairMap),
      0 < m.stash.remaining_depth → m.stash.remaining_depth < 65536 →
      m.tuple_variant = .ok (.scalarSeq v d, m') → d = m.stash.remaining_depth - 1)
    ∧ (∀ (gk : Bytes) (ps : List Pair) (rest : List (Bytes × List Pair)),
      into_seq_stash ⟨0, (gk, ps) :: rest⟩ = .error .MaximumDepthReached) := by
  have hsub : ∀ d : Nat, 0 < d → d < 65536 → sub16 d = d - 1 := by
    intro d h1 h2
    simp only [sub16]
    omega
  have hnvm : ∀ (st : Stash) (m' : PairMap) (st' : Stash),
      Stash.next_value_map st = .ok (m', st') →
      0 < st.remaining_depth ∧ st'.remaining_depth = st.remaining_depth ∧
        m'.stash.remaining_depth = st.remaining_depth - 1 := by
    intro st m' st' h
    simp only [Stash.next_value_map] at h
    split at h
    · cases h
    · rename_i hd
      rcases hg : st.groups with _ | ⟨⟨gk, ps⟩, rest⟩ <;> rw [hg] at h
      · cases h
      · injection h with h'
        injection h' with h1 h2
        subst h1
        subst h2
        exact ⟨by omega, rfl, rfl⟩
  have hnks : ∀ (m : PairMap) (k : Option Bytes) (m' : PairMap),
      m.next_key_seed = .ok (k, m') →
      0 < m'.stash.remaining_depth ∧ m'.stash.remaining_depth = m.stash.remaining_depth := by
    intro m k m' h
    simp only [PairMap.next_key_seed] at h
    split at h
    · cases h
    · rename_i hd
      rcases hk : m.next_key with e | ⟨k0, m0⟩ <;> rw [hk] at h
      · cases h
      · have hdep := next_key_depth m k0 m0 hk
        cases k0 with
        | some k1 =>
          simp only at h
          injection h with h'
          injection h' with h1 h2
          subst h2
          rw [hdep]
          exact ⟨by omega, rfl⟩
        | none =>
          simp only at h
          rcases hs : Stash.next_key m0.stash with _ | k1 <;> rw [hs] at h <;>
            (injection h with h'; injection h' with h1 h2; subst h2; rw [hdep];
              exact ⟨by omega, rfl⟩)
  have hvs : ∀ (m : PairMap) (r : SeedInput) (m' : PairMap),
      m.variant_seed = .ok (r, m') →
      0 < m'.stash.remaining_depth ∧ m'.stash.remaining_depth = m.stash.remaining_depth := by
    intro m r m' h
    simp only [PairMap.variant_seed] at h
    split at h
    · cases h
    · rename_i hd
      rcases hk : m.next_key with e | ⟨k0, m0⟩ <;> rw [hk] at h
      · cases h
      · have hdep := next_key_depth m k0 m0 hk
        cases k0 with
        | some k1 =>
          simp only at h
          injection h with h'
          injection h' with h1 h2
          subst h2
          rw [hdep]
          exact ⟨by omega, rfl⟩
        | none =>
          simp only at h
          rcases hs : Stash.next_key m0.stash with _ | k1 <;> rw [hs] at h
          · cases h
          · injection h with h'
            injection h' with h1 h2
            subst h2
            rw [hdep]
            exact ⟨by omega, rfl⟩
  refine ⟨hnvm, fun m k m' h => hnks m (some k) m' h, hvs, hsub, ?_, ?_, ?_, ?_⟩
  · intro m v d m' h1 h2 h
    simp only [PairMap.next_value_seed, PairMap.next_value] at h
    rcases hv : m.value with _ | v0 <;> rw [hv] at h
    · simp only at h
      rcases hm : Stash.next_value_map m.stash with e | ⟨child, st'⟩ <;> rw [hm] at h
      · cases h
      · simp at h
    · simp only at h
      simp only [Except.ok.injEq, Prod.mk.injEq, SeedInput.scalar.injEq] at h
      rw [← h.1.2]
      exact hsub m.stash.remaining_depth h1 h2
  · intro m v d m' h1 h2 h
    simp only [PairMap.newtype_variant_seed, PairMap.next_value] at h
    rcases hv : m.value with _ | v0 <;> rw [hv] at h
    · simp only at h
      rcases hm : Stash.next_value_map m.stash with e | ⟨child, st'⟩ <;> rw [hm] at h
      · cases h
      · simp at h
    · simp only at h
      simp only [Except.ok.injEq, Prod.mk.injEq, SeedInput.scalar.injEq] at h
      rw [← h.1.2]
      exact hsub m.stash.remaining_depth h1 h2
  · intro m v d m' h1 h2 h
    simp only [PairMap.tuple_variant, PairMap.next_value] at h
    rcases hv : m.value with _ | v0 <;> rw [hv] at h
    · simp only at h
      rcases hm : Stash.next_value_map m.stash with e | ⟨child, st'⟩ <;> rw [hm] at h
      · cases h
      · simp only at h
        rcases hq : child.into_seq with e | sq <;> rw [hq] at h
        · cases h
        · simp at h
    · simp only at h
      simp only [Except.ok.injEq, Prod.mk.injEq, SeedInput.scalarSeq.injEq] at h
      rw [← h.1.2]
      exact hsub m.stash.remaining_depth h1 h2
  · intro gk ps rest
    rw [into_seq_stash]
    simp [Stash.next_key, Stash.next_value_map]

/-- Witness for C10: the guards and the exact decrement at concrete
inputs. -/
theorem depth_sub_no_underflow_witness :
    (0 < (2 : Nat) ∧ (⟨2, []⟩ : Stash).remaining_depth = 2 ∧
      (PairMap.new 1 [⟨[98, 93], [121]⟩]).stash.remaining_depth = 2 - 1) ∧
      sub16 2 = 2 - 1 :=
  ⟨by
    have h := depth_sub_no_underflow.1 ⟨2, [([97], [⟨[98, 93], [121]⟩])]⟩
      (PairMap.new 1 [⟨[98, 93], [121]⟩]) ⟨2, []⟩ (by decide)
    exact ⟨h.1, h.2.1, h.2.2⟩,
    depth_sub_no_underflow.2.2.2.1 2 (by decide) (by decide)⟩

/-- C6: during `into_seq`, a stash group with empty group key has the
reconstructed child's pairs each wrapped in a fresh single-pair `PairMap`
and emitted as separate map items with sentinel sort key −1, while a group
with non-empty key is emitted as a single map item whose sort key is the
group key parsed as a bounded unsigned integer (else −1). -/
theorem into_seq_group_items :
    (∀ (d : Nat) (ps : List Pair) (rest : List (Bytes × List Pair)), 0 < d →
      into_seq_stash ⟨d, ([], ps) :: rest⟩ =
        (into_seq_stash ⟨d, rest⟩).map
          (fun items => (ps.map fun p =>
            ((-1 : Int), ItemKind.Map (PairMap.with_one_pair (sub16 d) p))) ++ items))
    ∧ (∀ (d : Nat) (gk : Bytes) (ps : List Pair) (rest : List (Bytes × List Pair)),
      0 < d → gk ≠ [] →
      into_seq_stash ⟨d, (gk, ps) :: rest⟩ =
        (into_seq_stash ⟨d, rest⟩).map
          (fun items => (sortKeyOf gk, ItemKind.Map ⟨ps, none, Stash.new (d - 1)⟩) :: items)) := by
  constructor
  · intro d ps rest hd
    rw [into_seq_stash]
    simp only [Stash.next_key, List.head?_cons, Option.map_some']
    split
    · rename_i e h
      simp only [Stash.next_value_map] at h
      rw [if_neg (by omega)] at h
      simp at h
    · rename_i mp st' h
      simp only [Stash.next_value_map] at h
      rw [if_neg (by omega)] at h
      simp only [Except.ok.injEq, Prod.mk.injEq] at h
      obtain ⟨hm, hst⟩ := h
      subst hm
      subst hst
      rw [if_pos trivial]
      rcases hrec : into_seq_stash ⟨d, rest⟩ with e | items <;> simp [hrec, Except.map]
  · intro d gk ps rest hd hgk
    rw [into_seq_stash]
    simp only [Stash.next_key, List.head?_cons, Option.map_some']
    split
    · rename_i e h
      simp only [Stash.next_value_map] at h
      rw [if_neg (by omega)] at h
      simp at h
    · rename_i mp st' h
      simp only [Stash.next_value_map] at h
      rw [if_neg (by omega)] at h
      simp only [Except.ok.injEq, Prod.mk.injEq] at h
      obtain ⟨hm, hst⟩ := h
      subst hm
      subst hst
      rw [if_neg hgk]
      rcases hrec : into_seq_stash ⟨d, rest⟩ with e | items <;> simp [hrec, Except.map]

/-- Witness for C6: a concrete empty-key group explodes its two pairs into
two −1-keyed single-pair maps; a concrete group named "7" becomes one item
with sort key 7. -/
theorem into_seq_group_items_witness :
    into_seq_stash ⟨2, ([], [⟨[93], [120]⟩, ⟨[93], [121]⟩]) :: []⟩ =
        .ok [((-1 : Int), ItemKind.Map (PairMap.with_one_pair (sub16 2) ⟨[93], [120]⟩)),
          ((-1 : Int), ItemKind.Map (PairMap.with_one_pair (sub16 2) ⟨[93], [121]⟩))] ∧
      into_seq_stash ⟨2, ([55], [⟨[93], [120]⟩]) :: []⟩ =
        .ok [((7 : Int), ItemKind.Map ⟨[⟨[93], [120]⟩], none, Stash.new 1⟩)] := by
  have hnil : into_seq_stash ⟨2, []⟩ = .ok [] := by
    rw [into_seq_stash]
    rfl
  constructor
  · rw [into_seq_group_items.1 2 [⟨[93], [120]⟩, ⟨[93], [121]⟩] [] (by decide), hnil]
    rfl
  · rw [into_seq_group_items.2 2 [55] [⟨[93], [120]⟩] [] (by decide) (by decide), hnil]
    rfl

/-- The scalar-draining loop of `into_seq` never changes the stash
depth. -/
theorem into_seq_scalars_depth :
    ∀ (n : Nat) (pairs : List Pair) (v : Option Bytes) (st : Stash)
      (items : List (Int × ItemKind)) (st' : Stash), pairs.length = n →
      into_seq_scalars pairs v st = .ok (items, st') →
      st'.remaining_depth = st.remaining_depth := by
  intro n
  induction n using Nat.strong_induction_on with
  | _ n ih =>
  intro pairs v st items st' hn h
  rw [into_seq_scalars] at h
  split at h
  · cases h
  · rename_i pairs0 v0 st0 hk
    injection h with h'
    injection h' with h1 h2
    subst h2
    exact next_key_aux_depth pairs v st none pairs0 v0 st0 hk
  · rename_i k0 pairs0 v0 st0 hk
    split at h
    · cases h
    · rename_i val
      split at h
      · cases h
      · rename_i items0 stF hrec
        injection h with h'
        injection h' with h1 h2
        subst h2
        have hlen : pairs0.length < n := by
          subst hn
          exact next_key_aux_some_length pairs v st k0 pairs0 _ st0 hk
        rw [ih pairs0.length hlen pairs0 none st0 items0 stF rfl hrec]
        exact next_key_aux_depth pairs v st (some k0) pairs0 _ st0 hk

/-- `discovery` returns the stash of the drained node, whose depth is the
node's own depth. -/
theorem discovery_depth (m : PairMap) (keyed : List (Int × ItemKind)) (st : Stash)
    (h : discovery m = .ok (keyed, st)) :
    st.remaining_depth = m.stash.remaining_depth := by
  simp only [discovery] at h
  rcases h1 : into_seq_scalars m.pairs m.value m.stash with e | ⟨items1, st1⟩ <;> rw [h1] at h
  · cases h
  · simp only at h
    rcases h2 : into_seq_stash st1 with e | items2 <;> rw [h2] at h
    · cases h
    · injection h with h'
      injection h' with ha hb
      subst hb
      exact into_seq_scalars_depth m.pairs.length m.pairs m.value m.stash items1 _ rfl h1

/-- C8: converting a `PairMap` into a `PairSeq` carries the map's stash
`remaining_depth` over unchanged (no decrement at the conversion step);
each scalar element of the `PairSeq` is handed to the scalar decoder at
that same unchanged depth, and a map element hands its stored child
`PairMap` to the seed unchanged. -/
theorem into_seq_depth_carryover :
    (∀ (m : PairMap) (sq : PairSeq),
      m.into_seq = .ok sq → sq.remaining_depth = m.stash.remaining_depth)
    ∧ (∀ (sq sq' : PairSeq) (v : Bytes) (d : Nat),
      sq.next_element_seed = some (.scalar v d, sq') →
      d = sq.remaining_depth ∧ sq'.remaining_depth = sq.remaining_depth ∧
        sq.items = sq'.items ++ [ItemKind.Value v])
    ∧ (∀ (sq sq' : PairSeq) (child : PairMap),
      sq.next_element_seed = some (.subMap child, sq') →
      sq'.remaining_depth = sq.remaining_depth ∧
        sq.items = sq'.items ++ [ItemKind.Map child]) := by
  refine ⟨?_, ?_, ?_⟩
  · intro m sq h
    simp only [PairMap.into_seq] at h
    rcases hd : discovery m with e | ⟨keyed, st⟩ <;> rw [hd] at h
    · cases h
    · injection h with h'
      subst h'
      exact discovery_depth m keyed st hd
  · intro sq sq' v d h
    simp only [PairSeq.next_element_seed] at h
    rcases hp : vecPop sq.items with _ | ⟨rest, it⟩ <;> rw [hp] at h
    · cases h
    · rcases it with v0 | child0 <;> simp only at h <;>
        simp only [Option.some.injEq, Prod.mk.injEq] at h
      · obtain ⟨hx, hsq⟩ := h
        injection hx with hv1 hd1
        subst hv1
        subst hd1
        subst hsq
        exact ⟨rfl, rfl, vecPop_eq_some sq.items rest _ hp⟩
      · obtain ⟨hx, hsq⟩ := h
        cases hx
  · intro sq sq' child h
    simp only [PairSeq.next_element_seed] at h
    rcases hp : vecPop sq.items with _ | ⟨rest, it⟩ <;> rw [hp] at h
    · cases h
    · rcases it with v0 | child0 <;> simp only at h <;>
        simp only [Option.some.injEq, Prod.mk.injEq] at h
      · obtain ⟨hx, hsq⟩ := h
        cases hx
      · obtain ⟨hx, hsq⟩ := h
        injection hx with hc1
        subst hc1
        subst hsq
        exact ⟨rfl, vecPop_eq_some sq.items rest _ hp⟩

/-- Witness for C8: a concrete conversion keeps depth 4, and a concrete
sequence hands its scalar at depth 4 and its map item unchanged. -/
theorem into_seq_depth_carryover_witness :
    ((4 : Nat) = 4 ∧ (4 : Nat) = 4 ∧
      ([ItemKind.Map (PairMap.new 3 []), ItemKind.Value [120]] : List ItemKind) =
        [ItemKind.Map (PairMap.new 3 [])] ++ [ItemKind.Value [120]]) ∧
      ((4 : Nat) = 4 ∧
        ([ItemKind.Map (PairMap.new 3 [])] : List ItemKind) =
          [] ++ [ItemKind.Map (PairMap.new 3 [])]) :=
  ⟨into_seq_depth_carryover.2.1
      ⟨[ItemKind.Map (PairMap.new 3 []), ItemKind.Value [120]], 4⟩
      ⟨[ItemKind.Map (PairMap.new 3 [])], 4⟩ [120] 4 rfl,
    into_seq_depth_carryover.2.2
      ⟨[ItemKind.Map (PairMap.new 3 [])], 4⟩ ⟨[], 4⟩ (PairMap.new 3 []) rfl⟩

/-- The sort comparison is transitive. -/
theorem sortLE_trans : ∀ a b c : Int × ItemKind, sortLE a b → sortLE b c → sortLE a c := by
  intro a b c hab hbc
  simp only [sortLE, decide_eq_true_eq] at *
  omega

/-- The sort comparison is total. -/
theorem sortLE_total : ∀ a b : Int × ItemKind, sortLE a b || sortLE b a := by
  intro a b
  simp only [sortLE, Bool.or_eq_true, decide_eq_true_eq]
  omega

/-- Stability of the embedded sort: the items holding any fixed sort key
appear in the sorted list exactly in their discovery order. -/
theorem mergeSort_filter_key (keyed : List (Int × ItemKind)) (k : Int) :
    (keyed.mergeSort sortLE).filter (fun it => it.1 == k) =
      keyed.filter (fun it => it.1 == k) := by
  have hpw : (keyed.filter (fun it => it.1 == k)).Pairwise (fun a b => sortLE a b = true) := by
    apply List.pairwise_of_forall_mem_list
    intro a ha b hb
    have ha' := (List.mem_filter.mp ha).2
    have hb' := (List.mem_filter.mp hb).2
    simp only [beq_iff_eq] at ha' hb'
    simp [sortLE, ha', hb']
  have hsub : List.Sublist (keyed.filter (fun it => it.1 == k)) (keyed.mergeSort sortLE) :=
    List.sublist_mergeSort sortLE_trans sortLE_total hpw (List.filter_sublist keyed)
  have h2 := hsub.filter (fun it => it.1 == k)
  have hidem : (keyed.filter (fun it => it.1 == k)).filter (fun it => it.1 == k) =
      keyed.filter (fun it => it.1 == k) := by
    rw [List.filter_filter]
    simp
  rw [hidem] at h2
  have hlen : ((keyed.mergeSort sortLE).filter (fun it => it.1 == k)).length =
      (keyed.filter (fun it => it.1 == k)).length :=
    ((List.mergeSort_perm keyed sortLE).filter (fun it => it.1 == k)).length_eq
  exact (h2.eq_of_length hlen.symm).symm

unseal into_seq_scalars into_seq_stash emit_all List.mergeSort List.merge in
/-- C2: sequence iteration over the `PairSeq` built by `into_seq` emits
the discovered items in ascending sort-key order with ties in discovery
order — despite the implementation sorting ascending, reversing, and
popping from the back — so sentinel (−1) items precede every explicitly
indexed item; concretely, terminal keys "0"→"x", "2"→"y", "1"→"z" in
every one of the six input orders decode as the sequence x, z, y. -/
theorem into_seq_emission_order :
    (∀ (m : PairMap) (keyed : List (Int × ItemKind)) (st : Stash),
      discovery m = .ok (keyed, st) →
      ∃ sq : PairSeq, m.into_seq = .ok sq ∧
        emit_all sq = (keyed.mergeSort sortLE).map (fun it => itemToSeed st.remaining_depth it.2) ∧
        (keyed.mergeSort sortLE).Pairwise (fun a b => a.1 ≤ b.1) ∧
        (∀ k : Int, (keyed.mergeSort sortLE).filter (fun it => it.1 == k) =
          keyed.filter (fun it => it.1 == k)))
    ∧ (PairMap.into_seq ⟨[⟨[48, 93], [120]⟩, ⟨[50, 93], [121]⟩, ⟨[49, 93], [122]⟩], none,
        Stash.new 5⟩).map emit_all =
        .ok [.scalar [120] 5, .scalar [122] 5, .scalar [121] 5]
    ∧ (PairMap.into_seq ⟨[⟨[48, 93], [120]⟩, ⟨[49, 93], [122]⟩, ⟨[50, 93], [121]⟩], none,
        Stash.new 5⟩).map emit_all =
        .ok [.scalar [120] 5, .scalar [122] 5, .scalar [121] 5]
    ∧ (PairMap.into_seq ⟨[⟨[50, 93], [121]⟩, ⟨[48, 93], [120]⟩, ⟨[49, 93], [122]⟩], none,
        Stash.new 5⟩).map emit_all =
        .ok [.scalar [120] 5, .scalar [122] 5, .scalar [121] 5]
    ∧ (PairMap.into_seq ⟨[⟨[50, 93], [121]⟩, ⟨[49, 93], [122]⟩, ⟨[48, 93], [120]⟩], none,
        Stash.new 5⟩).map emit_all =
        .ok [.scalar [120] 5, .scalar [122] 5, .scalar [121] 5]
    ∧ (PairMap.into_seq ⟨[⟨[49, 93], [122]⟩, ⟨[48, 93], [120]⟩, ⟨[50, 93], [121]⟩], none,
        Stash.new 5⟩).map emit_all =
        .ok [.scalar [120] 5, .scalar [122] 5, .scalar [121] 5]
    ∧ (PairMap.into_seq ⟨[⟨[49, 93], [122]⟩, ⟨[50, 93], [121]⟩, ⟨[48, 93], [120]⟩], none,
        Stash.new 5⟩).map emit_all =
        .ok [.scalar [120] 5, .scalar [122] 5, .scalar [121] 5] := by
  refine ⟨?_, by rfl, by rfl, by rfl, by rfl, by rfl, by rfl⟩
  intro m keyed st h
  refine ⟨⟨((keyed.mergeSort sortLE).reverse).map Prod.snd, st.remaining_depth⟩, ?_, ?_, ?_, ?_⟩
  · simp only [PairMap.into_seq, h]
  · rw [emit_all_eq]
    simp [List.map_reverse, List.map_map, Function.comp]
  · exact (List.sorted_mergeSort sortLE_trans sortLE_total keyed).imp
      (fun hab => by simpa [sortLE] using hab)
  · intro k
    exact mergeSort_filter_key keyed k

unseal into_seq_scalars into_seq_stash emit_all List.mergeSort List.merge in
/-- Witness for C2: the general emission-order fact applied to the
concrete input 0→x, 2→y, 1→z at depth 5. -/
theorem into_seq_emission_order_witness :
    ∃ sq : PairSeq,
      PairMap.into_seq ⟨[⟨[48, 93], [120]⟩, ⟨[50, 93], [121]⟩, ⟨[49, 93], [122]⟩], none,
          Stash.new 5⟩ = .ok sq ∧
        emit_all sq = (([((0 : Int), ItemKind.Value [120]), ((2 : Int), ItemKind.Value [121]),
            ((1 : Int), ItemKind.Value [122])].mergeSort sortLE).map
          (fun it => itemToSeed 5 it.2)) ∧
        ([((0 : Int), ItemKind.Value [120]), ((2 : Int), ItemKind.Value [121]),
            ((1 : Int), ItemKind.Value [122])].mergeSort sortLE).Pairwise
          (fun a b => a.1 ≤ b.1) ∧
        (∀ k : Int,
          ([((0 : Int), ItemKind.Value [120]), ((2 : Int), ItemKind.Value [121]),
              ((1 : Int), ItemKind.Value [122])].mergeSort sortLE).filter (fun it => it.1 == k) =
            [((0 : Int), ItemKind.Value [120]), ((2 : Int), ItemKind.Value [121]),
              ((1 : Int), ItemKind.Value [122])].filter (fun it => it.1 == k)) :=
  into_seq_emission_order.1
    ⟨[⟨[48, 93], [120]⟩, ⟨[50, 93], [121]⟩, ⟨[49, 93], [122]⟩], none, Stash.new 5⟩
    [((0 : Int), ItemKind.Value [120]), ((2 : Int), ItemKind.Value [121]),
      ((1 : Int), ItemKind.Value [122])] (Stash.new 5) (by rfl)

end SerdeQS
